import Mathlib

/-!
# Verification of the practice-zh segmentation-and-coverage engine

Shallow embedding of the core algorithms of the repository:

* `splitTokenIntoKnownAndUnknown` — the dynamic-programming optimal token
  splitter (`scripts/find-unknown-chunks.js` lines 126-208, identical copy in
  `scripts/lib/chinese.js`).
* `canCoverSegment` / `calculateCoverage` — the per-learner coverage scorer
  (`scripts/find-sentences-for-quiz.js` lines 96-163).
* `numericToToneMarks` — numeric-pinyin to diacritic conversion
  (`scripts/lib/cedict.js` lines 63-100).
* `pipelineLoop` — the convergence-controller iteration loop
  (`scripts/pipeline.js` lines 514-566).

JavaScript strings are modelled as `List Char` (JS `[...token]` iterates code
points; all characters appearing here are in the BMP, so a JS string spread and
a `List Char` agree).  JS `Set<string>` vocabulary sets are modelled as
`List (List Char)` with membership `∈`.  JS numbers used for counting are `Nat`;
the one fractional value (the coverage score) is modelled as `ℚ`.
-/

namespace PracticeZh

/-! ## Data model -/

/-- A piece of the splitter output: `{text, known}` in the source. -/
structure Piece where
  text : List Char
  known : Bool
deriving Repr, DecidableEq

/-- One DP table entry of `splitTokenIntoKnownAndUnknown`:
`{ covered, pieces, prev, pieceText, pieceKnown }`.
The JS initial state has `prev: -1`; that field is never read (backtracking
stops at position 0 before following it), so we store `0` there. -/
structure DpState where
  covered : Nat
  pieces : Nat
  prev : Nat
  pieceText : List Char
  pieceKnown : Bool
deriving Repr, DecidableEq

/-- The JS `Array(n + 1).fill(null)` DP table, modelled as a total function
from positions to optional states. -/
def DpArray : Type := Nat → Option DpState

/-- `dp[0] = { covered: 0, pieces: 0, prev: -1, pieceText: "", pieceKnown: false }` -/
def dpInit : DpState := ⟨0, 0, 0, [], false⟩

/-- The initial DP table: only position 0 is populated. -/
def dp0 : DpArray := fun j => if j = 0 then some dpInit else none

/-- `isBetter(a, b)`: prefer more covered chars, then fewer pieces. -/
def isBetter (a b : DpState) : Bool :=
  if a.covered ≠ b.covered then decide (a.covered > b.covered)
  else decide (a.pieces < b.pieces)

/-- Point update of the DP table. -/
def dpWrite (dp : DpArray) (j : Nat) (s : DpState) : DpArray :=
  fun j' => if j' = j then some s else dp j'

/-- `if (!dp[j] || isBetter(cand, dp[j])) dp[j] = cand` -/
def offer (dp : DpArray) (j : Nat) (cand : DpState) : DpArray :=
  match dp j with
  | none => dpWrite dp j cand
  | some inc => if isBetter cand inc then dpWrite dp j cand else dp

/-- `chars.slice(i, i + len).join("")` -/
def sub (tok : List Char) (i len : Nat) : List Char :=
  (tok.drop i).take len

/-- The inner loop of one DP iteration: for each candidate length `len` in
`lens`, if `i + len <= n` and the substring is a known word, offer the known
transition to position `i + len`.  (The JS loop condition `i + len <= n`
terminates the loop early; since the guard is monotone in `len`, folding with
the guard is equivalent.) -/
def dpKnownFold (tok : List Char) (known : List (List Char)) (n : Nat)
    (st : DpState) (i : Nat) (dp : DpArray) (lens : List Nat) : DpArray :=
  lens.foldl
    (fun d len =>
      if i + len ≤ n ∧ sub tok i len ∈ known then
        offer d (i + len) ⟨st.covered + len, st.pieces + 1, i, sub tok i len, true⟩
      else d)
    dp

/-- One iteration `i` of the DP fill loop (`for (let i = 0; i < n; i++)`):
skip unreachable states, offer the single-character unknown transition to
`i + 1`, then try known words of lengths `1..maxWordLen`. -/
def dpIter (tok : List Char) (known : List (List Char)) (maxWordLen : Nat)
    (dp : DpArray) (i : Nat) : DpArray :=
  let n := tok.length
  match dp i with
  | none => dp
  | some st =>
    let dp1 := offer dp (i + 1) ⟨st.covered, st.pieces + 1, i, sub tok i 1, false⟩
    dpKnownFold tok known n st i dp1 (List.range' 1 maxWordLen)

/-- The DP table after the first `m` iterations of the fill loop. -/
def dpA (tok : List Char) (known : List (List Char)) (maxWordLen m : Nat) : DpArray :=
  (List.range m).foldl (dpIter tok known maxWordLen) dp0

/-- The fully filled DP table (all `n` iterations). -/
def buildDp (tok : List Char) (known : List (List Char)) (maxWordLen : Nat) : DpArray :=
  dpA tok known maxWordLen tok.length

/-- Backtracking from position `n` to `0`, collecting pieces in order.
The JS `while (position > 0)` loop follows `prev` pointers; every stored
`prev` is strictly smaller than its position, so `fuel = n + 1` steps always
suffice (the fuel only makes the model total). -/
def backtrack (dp : DpArray) : Nat → Nat → List Piece
  | 0, _ => []
  | _, 0 => []
  | fuel + 1, position + 1 =>
    match dp (position + 1) with
    | none => []
    | some st => backtrack dp fuel st.prev ++ [⟨st.pieceText, st.pieceKnown⟩]

/-- The merge step: append the piece, fusing it with the last accumulated
piece when both have the same `known` flag. -/
def mergeStep (mergedPieces : List Piece) (piece : Piece) : List Piece :=
  match mergedPieces.getLast? with
  | some lastPiece =>
    if lastPiece.known = piece.known then
      mergedPieces.dropLast ++ [⟨lastPiece.text ++ piece.text, lastPiece.known⟩]
    else
      mergedPieces ++ [piece]
  | none => mergedPieces ++ [piece]

/-- Merge adjacent pieces with the same known/unknown status. -/
def mergePieces (ps : List Piece) : List Piece :=
  ps.foldl mergeStep []

/-- `splitTokenIntoKnownAndUnknown(token, known, maxWordLen)` from
`scripts/find-unknown-chunks.js` (and `scripts/lib/chinese.js`): fill the DP
table, backtrack, then merge adjacent same-status pieces.  The JS default
`maxWordLen = 6` is passed explicitly at call sites below. -/
def splitTokenIntoKnownAndUnknown (token : List Char) (known : List (List Char))
    (maxWordLen : Nat) : List Piece :=
  let n := token.length
  let dp := buildDp token known maxWordLen
  mergePieces (backtrack dp (n + 1) n)

/-- Concatenation of the piece texts, in order. -/
def textConcat (ps : List Piece) : List Char :=
  (ps.map Piece.text).flatten

/-- Number of characters covered by known pieces. -/
def knownChars (ps : List Piece) : Nat :=
  (ps.map (fun p => if p.known then p.text.length else 0)).sum

/-- Total number of characters over all pieces. -/
def totalChars (ps : List Piece) : Nat :=
  (ps.map (fun p => p.text.length)).sum

/-- Characters of a decomposition counted as covered by the claim's reading:
every piece that is a member of the known set counts, with no length cap. -/
def decompCovered (known : List (List Char)) (d : List (List Char)) : Nat :=
  (d.map (fun p => if p ∈ known then p.length else 0)).sum

/-- Characters of a decomposition covered by known pieces of length at most
`maxLen` — the coverage the DP transitions can actually realize. -/
def cappedCovered (known : List (List Char)) (maxLen : Nat) (d : List (List Char)) : Nat :=
  (d.map (fun p => if p ∈ known ∧ p.length ≤ maxLen then p.length else 0)).sum

/-- Covered-character count of an optional DP entry (0 for an absent entry). -/
def coveredOf : Option DpState → Nat
  | none => 0
  | some s => s.covered

/-- The structural facts every populated DP entry at a position `0 < j`
satisfies: its `prev` pointer goes strictly backwards, its piece text is the
slice of the token between `prev` and `j`, its covered count is bounded by `j`
and extends the covered count of the entry it points back to by the piece
length exactly when the piece is known. -/
def GoodEntry (tok : List Char) (dp : DpArray) (j : Nat) (s : DpState) : Prop :=
  s.prev < j ∧ j ≤ tok.length ∧ s.covered ≤ j ∧
  s.pieceText = sub tok s.prev (j - s.prev) ∧
  ∃ s0, dp s.prev = some s0 ∧
    s.covered = s0.covered + (if s.pieceKnown then j - s.prev else 0)

/-- Invariant of the DP table after the first `m` fill iterations. -/
def DpInv (tok : List Char) (m : Nat) (dp : DpArray) : Prop :=
  dp 0 = some dpInit ∧
  ∀ j s, dp j = some s → 0 < j → GoodEntry tok dp j s ∧ s.prev < m

/-! ## Coverage scorer (`scripts/find-sentences-for-quiz.js`) -/

/-- `isCJK(char)`: CJK Unified Ideographs, U+4E00 to U+9FFF.  (JS reads
`charCodeAt(0)`; for astral code points that is a surrogate in
0xD800-0xDBFF, outside the range, so comparing the code point directly is
equivalent.) -/
def isCJK (c : Char) : Bool :=
  decide (0x4e00 ≤ c.toNat) && decide (c.toNat ≤ 0x9fff)

/-- The `CHINESE_PUNCTUATION` set of `find-sentences-for-quiz.js`, as the
source array (it lists the ASCII double and single quote twice each; the JS
`Set` collapses the duplicates, and list membership is likewise unaffected). -/
def QUIZ_CHINESE_PUNCTUATION : List (List Char) :=
  [['。'], ['，'], ['、'], ['；'], ['：'], ['？'], ['！'],
   ['"'], ['"'], ['\''], ['\''],
   ['（'], ['）'], ['【'], ['】'], ['《'], ['》'], ['—'], ['…'], ['·'], ['～']]

/-- `isChinesePunctuation(char)` in the quiz script: plain set membership
(no length-1 guard; the set only holds single-character strings). -/
def isChinesePunctuationQuiz (s : List Char) : Bool :=
  decide (s ∈ QUIZ_CHINESE_PUNCTUATION)

/-- The first length `len` in `min(4, remaining.length), ..., 1` such that the
prefix `remaining.slice(0, len)` is in the word bank. -/
def findGreedyPrefix (userWordBank : List (List Char)) (remaining : List Char) :
    Option Nat :=
  (List.range' 1 (min 4 remaining.length)).reverse.find?
    (fun len => decide (remaining.take len ∈ userWordBank))

/-- The greedy loop of `canCoverSegment`, fuelled for totality: repeatedly
take the longest known prefix (up to 4 characters); `none` when some residue
has no known prefix.  Every matched prefix consumes at least one character,
so `fuel = remaining.length` steps always suffice; the fuel only makes the
model total and structurally recursive. -/
def coverGreedyFuel (userWordBank : List (List Char)) :
    Nat → List Char → Option (List (List Char))
  | _, [] => some []
  | 0, _ :: _ => none
  | fuel + 1, c :: rest =>
    match findGreedyPrefix userWordBank (c :: rest) with
    | none => none
    | some len =>
      match coverGreedyFuel userWordBank fuel ((c :: rest).drop len) with
      | none => none
      | some breakdown => some ((c :: rest).take len :: breakdown)

/-- The greedy `while (remaining.length > 0)` loop of `canCoverSegment`. -/
def coverGreedy (userWordBank : List (List Char)) (remaining : List Char) :
    Option (List (List Char)) :=
  coverGreedyFuel userWordBank remaining.length remaining

/-- Scorer result of `canCoverSegment`: `{ known, breakdown }` (the JS
`breakdown: null` is `none`). -/
structure CoverOut where
  known : Bool
  breakdown : Option (List (List Char))
deriving Repr, DecidableEq

/-- `canCoverSegment(segment, userWordBank)`: direct membership, else the
greedy longest-prefix breakdown. -/
def canCoverSegment (segment : List Char) (userWordBank : List (List Char)) : CoverOut :=
  if segment ∈ userWordBank then ⟨true, some [segment]⟩
  else
    match coverGreedy userWordBank segment with
    | some breakdown => ⟨true, some breakdown⟩
    | none => ⟨false, none⟩

/-- `CoverageResult` of `calculateCoverage`. -/
structure CoverageResult where
  score : ℚ
  totalSegments : Nat
  knownSegments : Nat
  unknownSegments : List (List Char)
deriving Repr, DecidableEq

/-- The per-segment accounting step of `calculateCoverage`: skip punctuation
and segments with no CJK character; otherwise count the segment and classify
it with `canCoverSegment`. -/
def coverageStep (userWordBank : List (List Char))
    (acc : Nat × Nat × List (List Char)) (segment : List Char) :
    Nat × Nat × List (List Char) :=
  if isChinesePunctuationQuiz segment then acc
  else if ¬ segment.any isCJK then acc
  else
    if (canCoverSegment segment userWordBank).known then
      (acc.1 + 1, acc.2.1 + 1, acc.2.2)
    else
      (acc.1 + 1, acc.2.1, acc.2.2 ++ [segment])

/-- `calculateCoverage(zh, userWordBank)`, taking the segmenter output
(`nodejieba.cut(zh)`, an external black box) as the `segments` argument.
`score = totalSegments > 0 ? knownSegments / totalSegments : 0`. -/
def calculateCoverage (segments : List (List Char)) (userWordBank : List (List Char)) :
    CoverageResult :=
  let acc := segments.foldl (coverageStep userWordBank) (0, 0, [])
  ⟨if acc.1 > 0 then (acc.2.1 : ℚ) / (acc.1 : ℚ) else 0, acc.1, acc.2.1, acc.2.2⟩

/-! ## Pinyin tone-mark conversion (`scripts/lib/cedict.js`) -/

/-- The `toneMap` rows: the five display variants (tones 1-4 and neutral)
of each markable vowel. -/
def toneVariants (v : Char) : Option (List Char) :=
  if v = 'a' then some ['ā', 'á', 'ǎ', 'à', 'a']
  else if v = 'e' then some ['ē', 'é', 'ě', 'è', 'e']
  else if v = 'i' then some ['ī', 'í', 'ǐ', 'ì', 'i']
  else if v = 'o' then some ['ō', 'ó', 'ǒ', 'ò', 'o']
  else if v = 'u' then some ['ū', 'ú', 'ǔ', 'ù', 'u']
  else if v = 'ü' then some ['ǖ', 'ǘ', 'ǚ', 'ǜ', 'ü']
  else if v = 'v' then some ['ǖ', 'ǘ', 'ǚ', 'ǜ', 'ü']
  else none

/-- `vowelOrder`: the fixed precedence used to locate the marked vowel. -/
def vowelOrder : List (List Char) :=
  [['a'], ['e'], ['o', 'u'], ['o'], ['i', 'u'], ['u', 'i'], ['i'], ['u'], ['ü']]

/-- JS `base.includes(v)`: substring containment. -/
def listIncludes (hay pat : List Char) : Bool :=
  hay.tails.any (fun t => pat.isPrefixOf t)

/-- `base.replace(/u:/g, "ü")`: global left-to-right replacement of the
two-character sequence `u:`. -/
def replaceUColon : List Char → List Char
  | 'u' :: ':' :: rest => 'ü' :: replaceUColon rest
  | c :: rest => c :: replaceUColon rest
  | [] => []

/-- `base.replace(/v/g, "ü")`. -/
def replaceV (base : List Char) : List Char :=
  base.map (fun c => if c = 'v' then 'ü' else c)

/-- JS `String.replace` with a single-character pattern: replace the first
occurrence of `target` by `mark`. -/
def replaceFirstChar : List Char → Char → Char → List Char
  | [], _, _ => []
  | c :: rest, target, mark =>
    if c = target then mark :: rest else c :: replaceFirstChar rest target mark

/-- The `u:`/`v` → `ü` normalization applied to the lowercased base. -/
def normalizeBase (base : List Char) : List Char :=
  replaceV (replaceUColon base)

/-- The `vowelOrder` loop of `numericToToneMarks`: find the first precedence
pattern contained in the base, take its last character as the target vowel,
and (for tones 1-5) replace the first occurrence of the target by its marked
variant.  Tones outside 1-5 leave the base unchanged. -/
def markVowel (base : List Char) (tone : Nat) : List Char :=
  match vowelOrder.find? (fun v => listIncludes base v) with
  | none => base
  | some v =>
    let targetVowel := v.getLastD ' '
    match toneVariants targetVowel with
    | none => base
    | some variants =>
      if 1 ≤ tone ∧ tone ≤ 5 then
        replaceFirstChar base targetVowel (variants.getD (tone - 1) targetVowel)
      else base

/-- One syllable of `numericToToneMarks`: if the syllable ends in a digit,
strip it, lowercase (the pinyin alphabet is ASCII, where `Char.toLower`
agrees with JS `toLowerCase`), normalize `u:`/`v` to `ü`, then mark the first
vowel found per the `vowelOrder` precedence. -/
def convertSyllable (syllable : List Char) : List Char :=
  match syllable.getLast? with
  | none => syllable
  | some c =>
    if c.isDigit then
      markVowel (normalizeBase ((syllable.dropLast).map Char.toLower))
        (c.toNat - '0'.toNat)
    else syllable

/-- `numericToToneMarks(pinyin)`: split on single spaces (JS
`split(" ")`), convert each syllable, re-join with spaces. -/
def numericToToneMarks (pinyin : List Char) : List Char :=
  List.intercalate [' '] ((pinyin.splitOn ' ').map convertSyllable)

/-! ## Convergence controller loop (`scripts/pipeline.js` lines 514-566)

The loop state (known-word set, generated artifact files, database) is
abstracted to a type `S`; `find` models `findUnknownChunks` (returns the
unknown-chunk count and the state it leaves behind) and `resolve` models the
resolution steps (`lookupUnknownChunks` + `enrichCustomWords` + merging the
newly enriched words into the in-memory known set). -/

/-- Observable record of one controller round: the unknown count the round
measured and whether resolution ran in that round. -/
structure Round where
  unknowns : Nat
  resolved : Bool
deriving Repr, DecidableEq

/-- The `while (iteration <= maxIterations)` loop, recursing on the number of
remaining iterations.  `previousUnknowns` is `none` for the JS `Infinity`
sentinel (`u >= Infinity` is false for every count). -/
def pipelineLoop {S : Type} (find : S → Nat × S) (resolve : S → S) :
    Nat → Option Nat → S → List Round × S
  | 0, _, s => ([], s)
  | remaining + 1, previousUnknowns, s =>
    let r := find s
    let unknownCount := r.1
    let converged := match previousUnknowns with
      | some p => decide (unknownCount ≥ p)
      | none => false
    if converged then ([⟨unknownCount, false⟩], r.2)
    else if unknownCount = 0 then ([⟨unknownCount, false⟩], r.2)
    else
      let s2 := resolve r.2
      let rest := pipelineLoop find resolve remaining (some unknownCount) s2
      (⟨unknownCount, true⟩ :: rest.1, rest.2)

/-- `maxIterations = 5`, `iteration` starts at 1, `previousUnknowns = Infinity`. -/
def runConvergence {S : Type} (find : S → Nat × S) (resolve : S → S) (s : S) :
    List Round × S :=
  pipelineLoop find resolve 5 none s

/-! ## Lemmas about piece lists and merging -/

theorem textConcat_append (l1 l2 : List Piece) :
    textConcat (l1 ++ l2) = textConcat l1 ++ textConcat l2 := by
  simp [textConcat]

theorem knownChars_append (l1 l2 : List Piece) :
    knownChars (l1 ++ l2) = knownChars l1 + knownChars l2 := by
  simp [knownChars]

theorem totalChars_append (l1 l2 : List Piece) :
    totalChars (l1 ++ l2) = totalChars l1 + totalChars l2 := by
  simp [totalChars]

theorem totalChars_eq_length_textConcat (ps : List Piece) :
    totalChars ps = (textConcat ps).length := by
  simp [totalChars, textConcat, List.length_flatten, List.map_map, Function.comp_def]

theorem mergeStep_of_getLast?_none (acc : List Piece) (p : Piece)
    (h : acc.getLast? = none) : mergeStep acc p = acc ++ [p] := by
  simp [mergeStep, h]

theorem mergeStep_of_getLast?_some (acc : List Piece) (p lastPiece : Piece)
    (h : acc.getLast? = some lastPiece) :
    mergeStep acc p =
      if lastPiece.known = p.known then
        acc.dropLast ++ [⟨lastPiece.text ++ p.text, lastPiece.known⟩]
      else acc ++ [p] := by
  simp [mergeStep, h]

theorem mergeStep_textConcat (acc : List Piece) (p : Piece) :
    textConcat (mergeStep acc p) = textConcat acc ++ p.text := by
  cases h : acc.getLast? with
  | none => rw [mergeStep_of_getLast?_none acc p h]; simp [textConcat_append, textConcat]
  | some lastPiece =>
    rw [mergeStep_of_getLast?_some acc p lastPiece h]
    have hacc : acc.dropLast ++ [lastPiece] = acc :=
      List.dropLast_append_getLast? lastPiece h
    by_cases hk : lastPiece.known = p.known
    · rw [if_pos hk, ← hacc]
      simp [textConcat_append, textConcat]
    · rw [if_neg hk]
      simp [textConcat_append, textConcat]

theorem mergeStep_knownChars (acc : List Piece) (p : Piece) :
    knownChars (mergeStep acc p) =
      knownChars acc + (if p.known then p.text.length else 0) := by
  cases h : acc.getLast? with
  | none => rw [mergeStep_of_getLast?_none acc p h]; simp [knownChars_append, knownChars]
  | some lastPiece =>
    rw [mergeStep_of_getLast?_some acc p lastPiece h]
    have hacc : acc.dropLast ++ [lastPiece] = acc :=
      List.dropLast_append_getLast? lastPiece h
    by_cases hk : lastPiece.known = p.known
    · rw [if_pos hk, ← hacc]
      simp only [knownChars_append, knownChars, List.map_cons, List.map_nil,
        List.sum_cons, List.sum_nil, List.length_append]
      cases hb : p.known <;> simp [hk, hb] <;> omega
    · rw [if_neg hk]
      simp [knownChars_append, knownChars]

theorem foldl_mergeStep_textConcat (ps : List Piece) :
    ∀ acc, textConcat (ps.foldl mergeStep acc) = textConcat acc ++ textConcat ps := by
  induction ps with
  | nil => intro acc; simp [textConcat]
  | cons p ps ih =>
    intro acc
    simp only [List.foldl_cons]
    rw [ih, mergeStep_textConcat]
    simp [textConcat, List.append_assoc]

theorem mergePieces_textConcat (ps : List Piece) :
    textConcat (mergePieces ps) = textConcat ps := by
  have h := foldl_mergeStep_textConcat ps []
  simpa [mergePieces, textConcat] using h

theorem foldl_mergeStep_knownChars (ps : List Piece) :
    ∀ acc, knownChars (ps.foldl mergeStep acc) = knownChars acc + knownChars ps := by
  induction ps with
  | nil => intro acc; simp [knownChars]
  | cons p ps ih =>
    intro acc
    simp only [List.foldl_cons]
    rw [ih, mergeStep_knownChars]
    simp [knownChars]
    omega

theorem mergePieces_knownChars (ps : List Piece) :
    knownChars (mergePieces ps) = knownChars ps := by
  have h := foldl_mergeStep_knownChars ps []
  simpa [mergePieces, knownChars] using h

theorem mergeStep_chain' (acc : List Piece) (p : Piece)
    (h : List.Chain' (fun a b : Piece => a.known ≠ b.known) acc) :
    List.Chain' (fun a b : Piece => a.known ≠ b.known) (mergeStep acc p) := by
  cases hl : acc.getLast? with
  | none =>
    have hnil : acc = [] := List.getLast?_eq_none_iff.mp hl
    rw [mergeStep_of_getLast?_none acc p hl]
    simp [hnil]
  | some lastPiece =>
    rw [mergeStep_of_getLast?_some acc p lastPiece hl]
    have hacc : acc.dropLast ++ [lastPiece] = acc :=
      List.dropLast_append_getLast? lastPiece hl
    by_cases hk : lastPiece.known = p.known
    · rw [if_pos hk]
      rw [← hacc] at h
      rcases List.chain'_append.mp h with ⟨h1, h2, h3⟩
      refine List.chain'_append.mpr ⟨h1, by simp, ?_⟩
      intro x hx y hy
      simp only [List.head?_cons, Option.mem_def, Option.some.injEq] at hy
      subst hy
      have := h3 x hx lastPiece (by simp)
      simpa using this
    · rw [if_neg hk]
      refine List.chain'_append.mpr ⟨h, by simp, ?_⟩
      intro x hx y hy
      simp only [List.head?_cons, Option.mem_def, Option.some.injEq] at hy
      subst hy
      rw [hl] at hx
      simp only [Option.mem_def, Option.some.injEq] at hx
      subst hx
      exact hk

theorem foldl_mergeStep_chain' (ps : List Piece) :
    ∀ acc, List.Chain' (fun a b : Piece => a.known ≠ b.known) acc →
      List.Chain' (fun a b : Piece => a.known ≠ b.known) (ps.foldl mergeStep acc) := by
  induction ps with
  | nil => intro acc h; simpa using h
  | cons p ps ih =>
    intro acc h
    simp only [List.foldl_cons]
    exact ih _ (mergeStep_chain' acc p h)

theorem mergePieces_chain' (ps : List Piece) :
    List.Chain' (fun a b : Piece => a.known ≠ b.known) (mergePieces ps) :=
  foldl_mergeStep_chain' ps [] (by simp)

theorem mergeStep_text_ne_nil (acc : List Piece) (p : Piece)
    (hacc : ∀ q ∈ acc, q.text ≠ []) (hp : p.text ≠ []) :
    ∀ q ∈ mergeStep acc p, q.text ≠ [] := by
  cases hl : acc.getLast? with
  | none =>
    rw [mergeStep_of_getLast?_none acc p hl]
    intro q hq
    rcases List.mem_append.mp hq with h | h
    · exact hacc q h
    · simp only [List.mem_singleton] at h; subst h; exact hp
  | some lastPiece =>
    rw [mergeStep_of_getLast?_some acc p lastPiece hl]
    by_cases hk : lastPiece.known = p.known
    · rw [if_pos hk]
      intro q hq
      rcases List.mem_append.mp hq with h | h
      · exact hacc q (List.dropLast_subset _ h)
      · simp only [List.mem_singleton] at h
        subst h
        simp only [ne_eq, List.append_eq_nil]
        intro ⟨_, hpe⟩
        exact hp hpe
    · rw [if_neg hk]
      intro q hq
      rcases List.mem_append.mp hq with h | h
      · exact hacc q h
      · simp only [List.mem_singleton] at h; subst h; exact hp

theorem foldl_mergeStep_text_ne_nil (ps : List Piece) :
    ∀ acc, (∀ q ∈ acc, q.text ≠ []) → (∀ q ∈ ps, q.text ≠ []) →
      ∀ q ∈ ps.foldl mergeStep acc, q.text ≠ [] := by
  induction ps with
  | nil => intro acc hacc _ q hq; exact hacc q hq
  | cons p ps ih =>
    intro acc hacc hps
    simp only [List.foldl_cons]
    exact ih _ (mergeStep_text_ne_nil acc p hacc (hps p (by simp)))
      (fun q hq => hps q (by simp [hq]))

theorem mergePieces_text_ne_nil (ps : List Piece) (h : ∀ q ∈ ps, q.text ≠ []) :
    ∀ q ∈ mergePieces ps, q.text ≠ [] :=
  foldl_mergeStep_text_ne_nil ps [] (by simp) h

theorem knownChars_le_totalChars (ps : List Piece) :
    knownChars ps ≤ totalChars ps := by
  induction ps with
  | nil => simp [knownChars, totalChars]
  | cons p ps ih =>
    simp only [knownChars, totalChars, List.map_cons, List.sum_cons] at *
    cases hb : p.known <;> simp [hb] <;> omega

theorem all_known_of_counts (ps : List Piece)
    (hne : ∀ p ∈ ps, p.text ≠ []) (h : knownChars ps = totalChars ps) :
    ∀ p ∈ ps, p.known = true := by
  induction ps with
  | nil => intro p hp; simp at hp
  | cons p ps ih =>
    have hlen : 0 < p.text.length :=
      List.length_pos.mpr (hne p (by simp))
    have hle := knownChars_le_totalChars ps
    simp only [knownChars, totalChars, List.map_cons, List.sum_cons] at h
    have e1 : (List.map (fun p => if p.known = true then p.text.length else 0) ps).sum
        = knownChars ps := rfl
    have e2 : (List.map (fun p => p.text.length) ps).sum = totalChars ps := rfl
    rw [e1, e2] at h
    cases hb : p.known with
    | false =>
      rw [hb] at h
      simp at h
      omega
    | true =>
      rw [hb] at h
      simp at h
      intro q hq
      rcases List.mem_cons.mp hq with rfl | hq'
      · exact hb
      · exact ih (fun r hr => hne r (by simp [hr])) (by omega) q hq'

/-! ## Lemmas about the DP table construction -/

theorem isBetter_covered_le {a b : DpState} (h : isBetter a b = true) :
    b.covered ≤ a.covered := by
  unfold isBetter at h
  by_cases hc : a.covered ≠ b.covered
  · rw [if_pos hc] at h; have := of_decide_eq_true h; omega
  · omega

theorem offer_of_none {dp : DpArray} {j : Nat} (cand : DpState) (h : dp j = none) :
    offer dp j cand = dpWrite dp j cand := by
  simp [offer, h]

theorem offer_of_some {dp : DpArray} {j : Nat} {inc : DpState} (cand : DpState)
    (h : dp j = some inc) :
    offer dp j cand = if isBetter cand inc then dpWrite dp j cand else dp := by
  simp [offer, h]

theorem offer_other (dp : DpArray) (j j' : Nat) (cand : DpState) (h : j' ≠ j) :
    offer dp j cand j' = dp j' := by
  cases hj : dp j with
  | none => rw [offer_of_none cand hj]; simp [dpWrite, h]
  | some inc =>
    rw [offer_of_some cand hj]
    by_cases hb : isBetter cand inc
    · rw [if_pos hb]; simp [dpWrite, h]
    · rw [if_neg hb]

theorem offer_self_cases (dp : DpArray) (j : Nat) (cand : DpState) :
    offer dp j cand j = some cand ∨ offer dp j cand j = dp j := by
  cases hj : dp j with
  | none => left; rw [offer_of_none cand hj]; simp [dpWrite]
  | some inc =>
    rw [offer_of_some cand hj]
    by_cases hb : isBetter cand inc
    · left; rw [if_pos hb]; simp [dpWrite]
    · right; rw [if_neg hb, hj]

theorem offer_self_isSome (dp : DpArray) (j : Nat) (cand : DpState) :
    (offer dp j cand j).isSome := by
  cases hj : dp j with
  | none => rw [offer_of_none cand hj]; simp [dpWrite]
  | some inc =>
    rw [offer_of_some cand hj]
    by_cases hb : isBetter cand inc
    · rw [if_pos hb]; simp [dpWrite]
    · rw [if_neg hb, hj]; simp

theorem offer_self_covered (dp : DpArray) (j : Nat) (cand : DpState) :
    cand.covered ≤ coveredOf (offer dp j cand j) := by
  cases hj : dp j with
  | none => rw [offer_of_none cand hj]; simp [dpWrite, coveredOf]
  | some inc =>
    rw [offer_of_some cand hj]
    by_cases hb : isBetter cand inc
    · rw [if_pos hb]; simp [dpWrite, coveredOf]
    · rw [if_neg hb, hj]
      simp only [coveredOf]
      by_cases hc : cand.covered ≤ inc.covered
      · exact hc
      · exfalso
        apply hb
        unfold isBetter
        rw [if_pos (by omega)]
        exact decide_eq_true (by omega)

theorem offer_covered_mono (dp : DpArray) (j j' : Nat) (cand : DpState) :
    coveredOf (dp j') ≤ coveredOf (offer dp j cand j') := by
  by_cases hj : j' = j
  · subst hj
    cases hj' : dp j' with
    | none => simp [coveredOf]
    | some inc =>
      rw [offer_of_some cand hj']
      by_cases hb : isBetter cand inc
      · rw [if_pos hb]
        simp only [dpWrite, if_pos rfl, coveredOf, hj']
        exact isBetter_covered_le hb
      · rw [if_neg hb, hj']
  · rw [offer_other dp j j' cand hj]

theorem offer_isSome_mono (dp : DpArray) (j j' : Nat) (cand : DpState)
    (h : (dp j').isSome) : (offer dp j cand j').isSome := by
  by_cases hj : j' = j
  · subst hj; exact offer_self_isSome dp j' cand
  · rw [offer_other dp j j' cand hj]; exact h

theorem dpKnownFold_nil (tok : List Char) (known : List (List Char))
    (n : Nat) (st : DpState) (i : Nat) (dp : DpArray) :
    dpKnownFold tok known n st i dp [] = dp := rfl

theorem dpKnownFold_cons (tok : List Char) (known : List (List Char))
    (n : Nat) (st : DpState) (i : Nat) (dp : DpArray) (len : Nat) (lens : List Nat) :
    dpKnownFold tok known n st i dp (len :: lens) =
      dpKnownFold tok known n st i
        (if i + len ≤ n ∧ sub tok i len ∈ known then
          offer dp (i + len) ⟨st.covered + len, st.pieces + 1, i, sub tok i len, true⟩
        else dp)
        lens := rfl

theorem dpKnownFold_covered_mono (tok : List Char) (known : List (List Char))
    (n : Nat) (st : DpState) (i : Nat) (lens : List Nat) :
    ∀ dp j', coveredOf (dp j') ≤ coveredOf (dpKnownFold tok known n st i dp lens j') := by
  induction lens with
  | nil => intro dp j'; rw [dpKnownFold_nil]
  | cons len lens ih =>
    intro dp j'
    rw [dpKnownFold_cons]
    by_cases hc : i + len ≤ n ∧ sub tok i len ∈ known
    · rw [if_pos hc]
      exact le_trans (offer_covered_mono dp (i + len) j' _) (ih _ j')
    · rw [if_neg hc]
      exact ih dp j'

theorem dpKnownFold_isSome_mono (tok : List Char) (known : List (List Char))
    (n : Nat) (st : DpState) (i : Nat) (lens : List Nat) :
    ∀ dp j', (dp j').isSome → (dpKnownFold tok known n st i dp lens j').isSome := by
  induction lens with
  | nil => intro dp j' h; rwa [dpKnownFold_nil]
  | cons len lens ih =>
    intro dp j' h
    rw [dpKnownFold_cons]
    by_cases hc : i + len ≤ n ∧ sub tok i len ∈ known
    · rw [if_pos hc]
      exact ih _ j' (offer_isSome_mono _ _ _ _ h)
    · rw [if_neg hc]
      exact ih dp j' h

theorem dpKnownFold_le_unchanged (tok : List Char) (known : List (List Char))
    (n : Nat) (st : DpState) (i : Nat) (lens : List Nat)
    (hlens : ∀ len ∈ lens, 1 ≤ len) :
    ∀ dp j', j' ≤ i → dpKnownFold tok known n st i dp lens j' = dp j' := by
  induction lens with
  | nil => intro dp j' _; rw [dpKnownFold_nil]
  | cons len lens ih =>
    intro dp j' hj'
    rw [dpKnownFold_cons]
    have h1 : 1 ≤ len := hlens len (by simp)
    have hne : j' ≠ i + len := by omega
    by_cases hc : i + len ≤ n ∧ sub tok i len ∈ known
    · rw [if_pos hc]
      rw [ih (fun l hl => hlens l (by simp [hl])) _ j' hj']
      exact offer_other _ _ _ _ hne
    · rw [if_neg hc]
      exact ih (fun l hl => hlens l (by simp [hl])) dp j' hj'

theorem dpKnownFold_hit (tok : List Char) (known : List (List Char))
    (n : Nat) (st : DpState) (i : Nat) (lens : List Nat) (len : Nat)
    (hmem : len ∈ lens) (hn : i + len ≤ n) (hk : sub tok i len ∈ known) :
    ∀ dp, st.covered + len ≤
      coveredOf (dpKnownFold tok known n st i dp lens (i + len)) := by
  induction lens with
  | nil => simp at hmem
  | cons l ls ih =>
    intro dp
    rw [dpKnownFold_cons]
    rcases List.mem_cons.mp hmem with rfl | hmem'
    · rw [if_pos ⟨hn, hk⟩]
      refine le_trans ?_ (dpKnownFold_covered_mono tok known n st i ls _ _)
      have h := offer_self_covered dp (i + len)
        ⟨st.covered + len, st.pieces + 1, i, sub tok i len, true⟩
      simpa using h
    · by_cases hc : i + l ≤ n ∧ sub tok i l ∈ known
      · rw [if_pos hc]; exact ih hmem' _
      · rw [if_neg hc]; exact ih hmem' dp

theorem dpIter_of_none (tok : List Char) (known : List (List Char)) (maxWordLen : Nat)
    {dp : DpArray} {i : Nat} (h : dp i = none) :
    dpIter tok known maxWordLen dp i = dp := by
  simp [dpIter, h]

theorem dpIter_of_some (tok : List Char) (known : List (List Char)) (maxWordLen : Nat)
    {dp : DpArray} {i : Nat} {st : DpState} (h : dp i = some st) :
    dpIter tok known maxWordLen dp i =
      dpKnownFold tok known tok.length st i
        (offer dp (i + 1) ⟨st.covered, st.pieces + 1, i, sub tok i 1, false⟩)
        (List.range' 1 maxWordLen) := by
  simp [dpIter, h]

theorem dpIter_le_unchanged (tok : List Char) (known : List (List Char))
    (maxWordLen : Nat) (dp : DpArray) (i j : Nat) (hj : j ≤ i) :
    dpIter tok known maxWordLen dp i j = dp j := by
  cases h : dp i with
  | none => rw [dpIter_of_none tok known maxWordLen h]
  | some st =>
    rw [dpIter_of_some tok known maxWordLen h]
    rw [dpKnownFold_le_unchanged tok known tok.length st i (List.range' 1 maxWordLen)
      (fun len hlen => (List.mem_range'_1.mp hlen).1) _ j hj]
    exact offer_other _ _ _ _ (by omega)

theorem dpIter_covered_mono (tok : List Char) (known : List (List Char))
    (maxWordLen : Nat) (dp : DpArray) (i j : Nat) :
    coveredOf (dp j) ≤ coveredOf (dpIter tok known maxWordLen dp i j) := by
  cases h : dp i with
  | none => rw [dpIter_of_none tok known maxWordLen h]
  | some st =>
    rw [dpIter_of_some tok known maxWordLen h]
    exact le_trans (offer_covered_mono dp (i + 1) j _)
      (dpKnownFold_covered_mono tok known tok.length st i _ _ j)

theorem dpIter_isSome_mono (tok : List Char) (known : List (List Char))
    (maxWordLen : Nat) (dp : DpArray) (i j : Nat) (h : (dp j).isSome) :
    (dpIter tok known maxWordLen dp i j).isSome := by
  cases hi : dp i with
  | none => rwa [dpIter_of_none tok known maxWordLen hi]
  | some st =>
    rw [dpIter_of_some tok known maxWordLen hi]
    exact dpKnownFold_isSome_mono tok known tok.length st i _ _ j
      (offer_isSome_mono _ _ _ _ h)

theorem dpIter_succ_isSome (tok : List Char) (known : List (List Char))
    (maxWordLen : Nat) (dp : DpArray) (i : Nat) {st : DpState} (h : dp i = some st) :
    (dpIter tok known maxWordLen dp i (i + 1)).isSome := by
  rw [dpIter_of_some tok known maxWordLen h]
  exact dpKnownFold_isSome_mono tok known tok.length st i _ _ (i + 1)
    (offer_self_isSome dp (i + 1) _)

theorem dpIter_succ_covered (tok : List Char) (known : List (List Char))
    (maxWordLen : Nat) (dp : DpArray) (i : Nat) {st : DpState} (h : dp i = some st) :
    st.covered ≤ coveredOf (dpIter tok known maxWordLen dp i (i + 1)) := by
  rw [dpIter_of_some tok known maxWordLen h]
  refine le_trans ?_
    (dpKnownFold_covered_mono tok known tok.length st i _ _ (i + 1))
  have hc := offer_self_covered dp (i + 1)
    ⟨st.covered, st.pieces + 1, i, sub tok i 1, false⟩
  simpa using hc

theorem dpIter_known_covered (tok : List Char) (known : List (List Char))
    (maxWordLen : Nat) (dp : DpArray) (i len : Nat) {st : DpState}
    (h : dp i = some st) (h1 : 1 ≤ len) (h2 : len ≤ maxWordLen)
    (hn : i + len ≤ tok.length) (hk : sub tok i len ∈ known) :
    st.covered + len ≤ coveredOf (dpIter tok known maxWordLen dp i (i + len)) := by
  rw [dpIter_of_some tok known maxWordLen h]
  exact dpKnownFold_hit tok known tok.length st i (List.range' 1 maxWordLen) len
    (List.mem_range'_1.mpr ⟨h1, by omega⟩) hn hk _

/-! ### The table after `m` iterations -/

theorem dpA_zero (tok : List Char) (known : List (List Char)) (maxWordLen : Nat) :
    dpA tok known maxWordLen 0 = dp0 := rfl

theorem dpA_succ (tok : List Char) (known : List (List Char)) (maxWordLen m : Nat) :
    dpA tok known maxWordLen (m + 1) =
      dpIter tok known maxWordLen (dpA tok known maxWordLen m) m := by
  unfold dpA
  rw [List.range_succ, List.foldl_append]
  rfl

theorem dpA_stable (tok : List Char) (known : List (List Char)) (maxWordLen : Nat)
    {m m' j : Nat} (hm : m ≤ m') (hj : j ≤ m) :
    dpA tok known maxWordLen m' j = dpA tok known maxWordLen m j := by
  induction m', hm using Nat.le_induction with
  | base => rfl
  | succ m' hm ih =>
    rw [dpA_succ]
    rw [dpIter_le_unchanged tok known maxWordLen _ m' j (by omega)]
    exact ih

theorem dpA_covered_mono (tok : List Char) (known : List (List Char)) (maxWordLen : Nat)
    {m m' : Nat} (j : Nat) (hm : m ≤ m') :
    coveredOf (dpA tok known maxWordLen m j) ≤ coveredOf (dpA tok known maxWordLen m' j) := by
  induction m', hm using Nat.le_induction with
  | base => exact le_refl _
  | succ m' hm ih =>
    rw [dpA_succ]
    exact le_trans ih (dpIter_covered_mono tok known maxWordLen _ m' j)

theorem dpA_isSome_mono (tok : List Char) (known : List (List Char)) (maxWordLen : Nat)
    {m m' : Nat} (j : Nat) (hm : m ≤ m')
    (h : (dpA tok known maxWordLen m j).isSome) :
    (dpA tok known maxWordLen m' j).isSome := by
  induction m', hm using Nat.le_induction with
  | base => exact h
  | succ m' hm ih =>
    rw [dpA_succ]
    exact dpIter_isSome_mono tok known maxWordLen _ m' j ih

theorem dpA_zero_entry (tok : List Char) (known : List (List Char)) (maxWordLen m : Nat) :
    dpA tok known maxWordLen m 0 = some dpInit := by
  induction m with
  | zero => rfl
  | succ m ih =>
    rw [dpA_succ]
    rw [dpIter_le_unchanged tok known maxWordLen _ m 0 (by omega)]
    exact ih

theorem dpA_diag_isSome (tok : List Char) (known : List (List Char)) (maxWordLen : Nat) :
    ∀ j, (dpA tok known maxWordLen j j).isSome := by
  intro j
  induction j with
  | zero => rw [dpA_zero_entry]; rfl
  | succ j ih =>
    rw [dpA_succ]
    rcases Option.isSome_iff_exists.mp ih with ⟨st, hst⟩
    exact dpIter_succ_isSome tok known maxWordLen _ j hst

theorem dpA_isSome (tok : List Char) (known : List (List Char)) (maxWordLen : Nat)
    {j m : Nat} (hj : j ≤ m) : (dpA tok known maxWordLen m j).isSome := by
  rw [dpA_stable tok known maxWordLen hj (le_refl j)]
  exact dpA_diag_isSome tok known maxWordLen j

/-! ### Pull-style bounds on the final table -/

theorem buildDp_eq (tok : List Char) (known : List (List Char)) (maxWordLen : Nat) :
    buildDp tok known maxWordLen = dpA tok known maxWordLen tok.length := rfl

theorem buildDp_covered_succ (tok : List Char) (known : List (List Char))
    (maxWordLen : Nat) (i : Nat) (hi : i + 1 ≤ tok.length) :
    coveredOf (buildDp tok known maxWordLen i) ≤
      coveredOf (buildDp tok known maxWordLen (i + 1)) := by
  rw [buildDp_eq]
  rw [dpA_stable tok known maxWordLen (show i ≤ tok.length by omega) (le_refl i)]
  rcases Option.isSome_iff_exists.mp (dpA_diag_isSome tok known maxWordLen i) with ⟨st, hst⟩
  rw [hst]
  have h1 : st.covered ≤ coveredOf (dpA tok known maxWordLen (i + 1) (i + 1)) := by
    rw [dpA_succ]
    exact dpIter_succ_covered tok known maxWordLen _ i hst
  have h2 := @dpA_covered_mono tok known maxWordLen (i + 1) tok.length (i + 1) hi
  exact le_trans h1 h2

theorem buildDp_covered_known (tok : List Char) (known : List (List Char))
    (maxWordLen : Nat) (i len : Nat) (h1 : 1 ≤ len) (h2 : len ≤ maxWordLen)
    (hn : i + len ≤ tok.length) (hk : sub tok i len ∈ known) :
    coveredOf (buildDp tok known maxWordLen i) + len ≤
      coveredOf (buildDp tok known maxWordLen (i + len)) := by
  rw [buildDp_eq]
  rw [dpA_stable tok known maxWordLen (show i ≤ tok.length by omega) (le_refl i)]
  rcases Option.isSome_iff_exists.mp (dpA_diag_isSome tok known maxWordLen i) with ⟨st, hst⟩
  rw [hst]
  have h3 : st.covered + len ≤ coveredOf (dpA tok known maxWordLen (i + 1) (i + len)) := by
    rw [dpA_succ]
    exact dpIter_known_covered tok known maxWordLen _ i len hst h1 h2 hn hk
  have h4 := @dpA_covered_mono tok known maxWordLen (i + 1) tok.length (i + len) (by omega)
  exact le_trans h3 h4

theorem buildDp_covered_index_mono (tok : List Char) (known : List (List Char))
    (maxWordLen : Nat) {a b : Nat} (hab : a ≤ b) (hb : b ≤ tok.length) :
    coveredOf (buildDp tok known maxWordLen a) ≤
      coveredOf (buildDp tok known maxWordLen b) := by
  induction b, hab using Nat.le_induction with
  | base => exact le_refl _
  | succ b hb' ih =>
    exact le_trans (ih (by omega)) (buildDp_covered_succ tok known maxWordLen b hb)

/-! ### The structural invariant of the DP table -/

theorem goodEntry_update (tok : List Char) {dp dp' : DpArray} {j : Nat} {s : DpState}
    (hg : GoodEntry tok dp j s) (hsame : dp' s.prev = dp s.prev) :
    GoodEntry tok dp' j s := by
  obtain ⟨h1, h2, h3, h4, s0, h5, h6⟩ := hg
  exact ⟨h1, h2, h3, h4, s0, by rw [hsame]; exact h5, h6⟩

theorem offer_inv (tok : List Char) (m : Nat) {dp : DpArray} {jw : Nat} {cand : DpState}
    (hzero : dp 0 = some dpInit)
    (hinv : ∀ j s, dp j = some s → 0 < j → GoodEntry tok dp j s ∧ s.prev ≤ m)
    (hjw : m < jw)
    (hcand : GoodEntry tok dp jw cand) (hcprev : cand.prev ≤ m) :
    (offer dp jw cand) 0 = some dpInit ∧
    ∀ j s, (offer dp jw cand) j = some s → 0 < j →
      GoodEntry tok (offer dp jw cand) j s ∧ s.prev ≤ m := by
  constructor
  · rw [offer_other dp jw 0 cand (by omega)]; exact hzero
  · intro j s hj hpos
    by_cases hje : j = jw
    · subst hje
      rcases offer_self_cases dp j cand with hcase | hcase
      · rw [hcase] at hj
        injection hj with hj
        subst hj
        refine ⟨goodEntry_update tok hcand ?_, hcprev⟩
        exact offer_other dp j _ cand (by omega)
      · rw [hcase] at hj
        obtain ⟨hg, hp⟩ := hinv j s hj hpos
        exact ⟨goodEntry_update tok hg (offer_other dp j _ cand (by omega)), hp⟩
    · rw [offer_other dp jw j cand hje] at hj
      obtain ⟨hg, hp⟩ := hinv j s hj hpos
      exact ⟨goodEntry_update tok hg (offer_other dp jw _ cand (by omega)), hp⟩

theorem dpKnownFold_inv (tok : List Char) (known : List (List Char)) (m : Nat)
    (st : DpState) (hstc : st.covered ≤ m) (lens : List Nat)
    (hlens : ∀ len ∈ lens, 1 ≤ len) :
    ∀ dp, dp 0 = some dpInit →
      (∀ j s, dp j = some s → 0 < j → GoodEntry tok dp j s ∧ s.prev ≤ m) →
      dp m = some st →
      (dpKnownFold tok known tok.length st m dp lens) 0 = some dpInit ∧
      (∀ j s, dpKnownFold tok known tok.length st m dp lens j = some s → 0 < j →
        GoodEntry tok (dpKnownFold tok known tok.length st m dp lens) j s ∧ s.prev ≤ m) ∧
      dpKnownFold tok known tok.length st m dp lens m = some st := by
  induction lens with
  | nil =>
    intro dp hz hinv hm
    rw [dpKnownFold_nil]
    exact ⟨hz, hinv, hm⟩
  | cons len lens ih =>
    intro dp hz hinv hm
    rw [dpKnownFold_cons]
    by_cases hc : m + len ≤ tok.length ∧ sub tok m len ∈ known
    · rw [if_pos hc]
      have h1 : 1 ≤ len := hlens len (by simp)
      have hcand : GoodEntry tok dp (m + len)
          ⟨st.covered + len, st.pieces + 1, m, sub tok m len, true⟩ := by
        unfold GoodEntry
        dsimp only
        refine ⟨by omega, hc.1, by omega, ?_, st, hm, ?_⟩
        · congr 1
          omega
        · simp
      obtain ⟨hz', hinv'⟩ := offer_inv tok m hz hinv (by omega) hcand (le_refl m)
      have hm' : (offer dp (m + len)
          ⟨st.covered + len, st.pieces + 1, m, sub tok m len, true⟩) m = some st := by
        rw [offer_other dp (m + len) m _ (by omega)]
        exact hm
      exact ih (fun l hl => hlens l (by simp [hl])) _ hz' hinv' hm'
    · rw [if_neg hc]
      exact ih (fun l hl => hlens l (by simp [hl])) dp hz hinv hm

theorem dpA_inv (tok : List Char) (known : List (List Char)) (maxWordLen : Nat) :
    ∀ m, m ≤ tok.length → DpInv tok m (dpA tok known maxWordLen m) := by
  intro m
  induction m with
  | zero =>
    intro _
    constructor
    · rfl
    · intro j s hj hpos
      exfalso
      have : dp0 j = none := by simp [dp0]; omega
      rw [dpA_zero] at hj
      rw [this] at hj
      exact Option.noConfusion hj
  | succ m ih =>
    intro hm1
    have hm : m ≤ tok.length := by omega
    obtain ⟨hz, hinv⟩ := ih hm
    rcases Option.isSome_iff_exists.mp
      (dpA_isSome tok known maxWordLen (le_refl m)) with ⟨st, hst⟩
    have hstc : st.covered ≤ m := by
      by_cases hm0 : m = 0
      · subst hm0
        rw [dpA_zero_entry] at hst
        injection hst with hst
        rw [← hst]
        exact Nat.le.refl
      · exact ((hinv m st hst (by omega)).1).2.2.1
    have hinv' : ∀ j s, dpA tok known maxWordLen m j = some s → 0 < j →
        GoodEntry tok (dpA tok known maxWordLen m) j s ∧ s.prev ≤ m := by
      intro j s hj hpos
      obtain ⟨hg, hp⟩ := hinv j s hj hpos
      exact ⟨hg, by omega⟩
    have hcand : GoodEntry tok (dpA tok known maxWordLen m) (m + 1)
        ⟨st.covered, st.pieces + 1, m, sub tok m 1, false⟩ := by
      unfold GoodEntry
      dsimp only
      refine ⟨by omega, hm1, by omega, ?_, st, hst, ?_⟩
      · congr 1
        omega
      · simp
    obtain ⟨hz', hinv''⟩ :=
      offer_inv tok m hz hinv' (by omega) hcand (le_refl m)
    have hm' : (offer (dpA tok known maxWordLen m) (m + 1)
        ⟨st.covered, st.pieces + 1, m, sub tok m 1, false⟩) m = some st := by
      rw [offer_other _ (m + 1) m _ (by omega)]
      exact hst
    obtain ⟨hz'', hinv''', _⟩ := dpKnownFold_inv tok known m st hstc
      (List.range' 1 maxWordLen) (fun len hlen => (List.mem_range'_1.mp hlen).1)
      _ hz' hinv'' hm'
    rw [dpA_succ, dpIter_of_some tok known maxWordLen hst]
    constructor
    · exact hz''
    · intro j s hj hpos
      obtain ⟨hg, hp⟩ := hinv''' j s hj hpos
      exact ⟨hg, by omega⟩

theorem buildDp_inv (tok : List Char) (known : List (List Char)) (maxWordLen : Nat) :
    DpInv tok tok.length (buildDp tok known maxWordLen) :=
  dpA_inv tok known maxWordLen tok.length (le_refl _)

theorem buildDp_zero (tok : List Char) (known : List (List Char)) (maxWordLen : Nat) :
    buildDp tok known maxWordLen 0 = some dpInit :=
  (buildDp_inv tok known maxWordLen).1

theorem buildDp_covered_le (tok : List Char) (known : List (List Char))
    (maxWordLen : Nat) (j : Nat) :
    coveredOf (buildDp tok known maxWordLen j) ≤ j := by
  obtain ⟨hz, hinv⟩ := buildDp_inv tok known maxWordLen
  cases h : buildDp tok known maxWordLen j with
  | none => simp [coveredOf]
  | some s =>
    by_cases hj0 : j = 0
    · subst hj0
      rw [hz] at h
      injection h with h
      rw [← h]
      exact Nat.le.refl
    · exact ((hinv j s h (by omega)).1).2.2.1

/-! ### Backtracking reconstructs a lossless decomposition -/

theorem backtrack_fuel_zero (dp : DpArray) (p : Nat) : backtrack dp 0 p = [] := by
  cases p <;> rfl

theorem backtrack_pos_zero (dp : DpArray) (fuel : Nat) : backtrack dp fuel 0 = [] := by
  cases fuel <;> rfl

theorem backtrack_succ (dp : DpArray) (fuel position : Nat) {st : DpState}
    (h : dp (position + 1) = some st) :
    backtrack dp (fuel + 1) (position + 1) =
      backtrack dp fuel st.prev ++ [⟨st.pieceText, st.pieceKnown⟩] := by
  simp [backtrack, h]

theorem backtrack_spec (tok : List Char) (known : List (List Char)) (maxWordLen : Nat) :
    ∀ fuel p, p ≤ fuel → p ≤ tok.length →
      textConcat (backtrack (buildDp tok known maxWordLen) fuel p) = tok.take p ∧
      (∀ q ∈ backtrack (buildDp tok known maxWordLen) fuel p, q.text ≠ []) ∧
      knownChars (backtrack (buildDp tok known maxWordLen) fuel p) =
        coveredOf (buildDp tok known maxWordLen p) := by
  intro fuel
  induction fuel with
  | zero =>
    intro p hp _
    have hp0 : p = 0 := by omega
    subst hp0
    refine ⟨by simp [backtrack_fuel_zero, textConcat], by simp [backtrack_fuel_zero], ?_⟩
    rw [backtrack_fuel_zero, buildDp_zero]
    simp [knownChars, coveredOf, dpInit]
  | succ fuel ih =>
    intro p hp hpn
    cases p with
    | zero =>
      refine ⟨by simp [backtrack_pos_zero, textConcat], by simp [backtrack_pos_zero], ?_⟩
      rw [backtrack_pos_zero, buildDp_zero]
      simp [knownChars, coveredOf, dpInit]
    | succ p' =>
      rcases Option.isSome_iff_exists.mp
        (by rw [buildDp_eq]; exact dpA_isSome tok known maxWordLen hpn :
          (buildDp tok known maxWordLen (p' + 1)).isSome) with ⟨s, hs⟩
      obtain ⟨hz, hinv⟩ := buildDp_inv tok known maxWordLen
      obtain ⟨hprev, hjlen, hcov, htext, s0, hs0, hlink⟩ :=
        (hinv (p' + 1) s hs (by omega)).1
      have hbt := backtrack_succ (buildDp tok known maxWordLen) fuel p' hs
      obtain ⟨ihc, ihne, ihk⟩ := ih s.prev (by omega) (by omega)
      have hsublen : (sub tok s.prev (p' + 1 - s.prev)).length = p' + 1 - s.prev := by
        simp only [sub, List.length_take, List.length_drop]
        omega
      refine ⟨?_, ?_, ?_⟩
      · rw [hbt, textConcat_append, ihc]
        have h1 : textConcat [⟨s.pieceText, s.pieceKnown⟩] = s.pieceText := by
          simp [textConcat]
        rw [h1, htext]
        have hpe : s.prev + (p' + 1 - s.prev) = p' + 1 := by omega
        have h2 := List.take_add tok s.prev (p' + 1 - s.prev)
        rw [hpe] at h2
        simp only [sub]
        exact h2.symm
      · intro q hq
        rw [hbt] at hq
        rcases List.mem_append.mp hq with h | h
        · exact ihne q h
        · simp only [List.mem_singleton] at h
          subst h
          simp only [htext]
          have : 0 < (sub tok s.prev (p' + 1 - s.prev)).length := by omega
          exact List.length_pos.mp this
      · rw [hbt, knownChars_append, ihk]
        have h1 : knownChars [⟨s.pieceText, s.pieceKnown⟩] =
            if s.pieceKnown then s.pieceText.length else 0 := by
          simp [knownChars]
        rw [h1, hs, hs0]
        simp only [coveredOf]
        rw [hlink, htext]
        cases hpk : s.pieceKnown <;> simp [hsublen]

/-! ### Properties of the splitter output -/

theorem split_eq (tok : List Char) (known : List (List Char)) (maxWordLen : Nat) :
    splitTokenIntoKnownAndUnknown tok known maxWordLen =
      mergePieces (backtrack (buildDp tok known maxWordLen) (tok.length + 1) tok.length) :=
  rfl

theorem split_textConcat (tok : List Char) (known : List (List Char)) (maxWordLen : Nat) :
    textConcat (splitTokenIntoKnownAndUnknown tok known maxWordLen) = tok := by
  rw [split_eq, mergePieces_textConcat]
  rw [(backtrack_spec tok known maxWordLen (tok.length + 1) tok.length
    (by omega) (le_refl _)).1]
  exact List.take_length tok

theorem split_text_ne_nil (tok : List Char) (known : List (List Char)) (maxWordLen : Nat) :
    ∀ q ∈ splitTokenIntoKnownAndUnknown tok known maxWordLen, q.text ≠ [] := by
  rw [split_eq]
  exact mergePieces_text_ne_nil _
    (backtrack_spec tok known maxWordLen (tok.length + 1) tok.length
      (by omega) (le_refl _)).2.1

theorem split_knownChars (tok : List Char) (known : List (List Char)) (maxWordLen : Nat) :
    knownChars (splitTokenIntoKnownAndUnknown tok known maxWordLen) =
      coveredOf (buildDp tok known maxWordLen tok.length) := by
  rw [split_eq, mergePieces_knownChars]
  exact (backtrack_spec tok known maxWordLen (tok.length + 1) tok.length
    (by omega) (le_refl _)).2.2

theorem split_totalChars (tok : List Char) (known : List (List Char)) (maxWordLen : Nat) :
    totalChars (splitTokenIntoKnownAndUnknown tok known maxWordLen) = tok.length := by
  rw [totalChars_eq_length_textConcat, split_textConcat]

theorem split_chain' (tok : List Char) (known : List (List Char)) (maxWordLen : Nat) :
    List.Chain' (fun a b : Piece => a.known ≠ b.known)
      (splitTokenIntoKnownAndUnknown tok known maxWordLen) := by
  rw [split_eq]
  exact mergePieces_chain' _

/-! ### Optimality of the DP coverage -/

theorem decomp_covered_le (tok : List Char) (known : List (List Char)) (maxWordLen : Nat) :
    ∀ (d : List (List Char)) (j : Nat), j ≤ tok.length → d.flatten = tok.take j →
      cappedCovered known maxWordLen d ≤ coveredOf (buildDp tok known maxWordLen j) := by
  intro d
  induction d using List.reverseRecOn with
  | nil =>
    intro j _ _
    simp [cappedCovered]
  | append_singleton d q ih =>
    intro j hj hflat
    have hflat' : d.flatten ++ q = tok.take j := by simpa using hflat
    have hlen : d.flatten.length + q.length = j := by
      have := congrArg List.length hflat'
      simp only [List.length_append, List.length_take] at this
      omega
    have hld : d.flatten = tok.take (j - q.length) := by
      have h1 : (d.flatten ++ q).take d.flatten.length = d.flatten :=
        List.take_left d.flatten q
      rw [hflat'] at h1
      rw [List.take_take] at h1
      rw [min_eq_left (by omega)] at h1
      rw [← h1]
      congr 1
      omega
    have hq : sub tok (j - q.length) q.length = q := by
      have h1 : (d.flatten ++ q).drop d.flatten.length = q :=
        List.drop_left d.flatten q
      rw [hflat'] at h1
      rw [List.drop_take] at h1
      rw [sub]
      have h2 : j - q.length = d.flatten.length := by omega
      have h3 : q.length = j - d.flatten.length := by omega
      rw [h2, h3]
      exact h1
    have hcap : cappedCovered known maxWordLen (d ++ [q]) =
        cappedCovered known maxWordLen d +
          (if q ∈ known ∧ q.length ≤ maxWordLen then q.length else 0) := by
      simp [cappedCovered]
    rw [hcap]
    by_cases hlq0 : q.length = 0
    · have hd : d.flatten = tok.take j := by
        rw [hld]
        congr 1
        omega
      have := ih j hj hd
      by_cases hcnt : q ∈ known ∧ q.length ≤ maxWordLen
      · rw [if_pos hcnt]; omega
      · rw [if_neg hcnt]; omega
    · have hlq : 1 ≤ q.length := by omega
      have ihb := ih (j - q.length) (by omega) hld
      by_cases hcnt : q ∈ known ∧ q.length ≤ maxWordLen
      · rw [if_pos hcnt]
        have hk : sub tok (j - q.length) q.length ∈ known := by
          rw [hq]; exact hcnt.1
        have hstep := buildDp_covered_known tok known maxWordLen
          (j - q.length) q.length hlq hcnt.2 (by omega) hk
        have hje : j - q.length + q.length = j := by omega
        rw [hje] at hstep
        omega
      · rw [if_neg hcnt]
        have hmono := buildDp_covered_index_mono tok known maxWordLen
          (show j - q.length ≤ j by omega) hj
        omega

theorem buildDp_covered_full (tok : List Char) (known : List (List Char))
    (maxWordLen : Nat) (d : List (List Char)) (hflat : d.flatten = tok)
    (hmem : ∀ p ∈ d, p ∈ known ∧ p.length ≤ maxWordLen) :
    coveredOf (buildDp tok known maxWordLen tok.length) = tok.length := by
  have hle := buildDp_covered_le tok known maxWordLen tok.length
  have hcap : cappedCovered known maxWordLen d = tok.length := by
    unfold cappedCovered
    rw [List.map_congr_left (fun p hp => if_pos (hmem p hp))]
    rw [← List.length_flatten, hflat]
  have hge := decomp_covered_le tok known maxWordLen d tok.length (le_refl _)
    (by rw [List.take_length]; exact hflat)
  omega

theorem split_all_known (tok : List Char) (known : List (List Char))
    (d : List (List Char)) (hflat : d.flatten = tok)
    (hmem : ∀ p ∈ d, p ∈ known ∧ p.length ≤ 6) :
    ∀ q ∈ splitTokenIntoKnownAndUnknown tok known 6, q.known = true := by
  apply all_known_of_counts _ (split_text_ne_nil tok known 6)
  rw [split_knownChars, split_totalChars,
    buildDp_covered_full tok known 6 d hflat hmem]

theorem split_single_known (tok : List Char) (known : List (List Char))
    (htok : tok ≠ []) (hlen : tok.length ≤ 6) (hmem : tok ∈ known) :
    splitTokenIntoKnownAndUnknown tok known 6 = [⟨tok, true⟩] := by
  have hall := split_all_known tok known [tok] (by simp)
    (by intro p hp; simp only [List.mem_singleton] at hp; subst hp; exact ⟨hmem, hlen⟩)
  have hchain := split_chain' tok known 6
  have hcat := split_textConcat tok known 6
  cases hsp : splitTokenIntoKnownAndUnknown tok known 6 with
  | nil =>
    exfalso
    rw [hsp] at hcat
    simp [textConcat] at hcat
    exact htok hcat
  | cons a t =>
    cases t with
    | nil =>
      rw [hsp] at hcat
      simp [textConcat] at hcat
      have hk := hall a (by rw [hsp]; simp)
      cases a with
      | mk atext aknown =>
        simp only at hcat hk
        rw [hcat, hk]
    | cons b t' =>
      exfalso
      rw [hsp] at hchain hall
      have hr := (List.chain'_cons.mp hchain).1
      have ha := hall a (by simp)
      have hb := hall b (by simp)
      rw [ha, hb] at hr
      exact hr rfl

theorem split_nil (known : List (List Char)) (maxWordLen : Nat) :
    splitTokenIntoKnownAndUnknown [] known maxWordLen = [] := rfl

/-! ## Lemmas about the greedy coverage scorer -/

theorem findGreedyPrefix_bounds (bank : List (List Char)) (remaining : List Char)
    {len : Nat} (h : findGreedyPrefix bank remaining = some len) :
    1 ≤ len ∧ len ≤ 4 ∧ len ≤ remaining.length ∧ remaining.take len ∈ bank := by
  unfold findGreedyPrefix at h
  have hmem := List.mem_reverse.mp (List.mem_of_find?_eq_some h)
  have hrange := List.mem_range'_1.mp hmem
  have hpred := List.find?_some h
  have hmem2 : remaining.take len ∈ bank := of_decide_eq_true hpred
  refine ⟨by omega, by omega, by omega, hmem2⟩

theorem coverGreedyFuel_sound (bank : List (List Char)) :
    ∀ (fuel : Nat) (l : List Char) (bd : List (List Char)),
      coverGreedyFuel bank fuel l = some bd →
      bd.flatten = l ∧ ∀ p ∈ bd, p ∈ bank ∧ p.length ≤ 4 ∧ p ≠ [] := by
  intro fuel
  induction fuel with
  | zero =>
    intro l bd h
    cases l with
    | nil =>
      injection h with h
      subst h
      exact ⟨rfl, by simp⟩
    | cons c rest => exact Option.noConfusion h
  | succ n ih =>
    intro l bd h
    cases l with
    | nil =>
      injection h with h
      subst h
      exact ⟨rfl, by simp⟩
    | cons c rest =>
      rw [coverGreedyFuel] at h
      split at h
      · exact Option.noConfusion h
      · rename_i len hf
        obtain ⟨h1, h4, hll, hbank⟩ := findGreedyPrefix_bounds bank (c :: rest) hf
        split at h
        · exact Option.noConfusion h
        · rename_i bd' hg
          injection h with h
          subst h
          obtain ⟨ihflat, ihmem⟩ := ih _ bd' hg
          constructor
          · simp only [List.flatten_cons, ihflat]
            exact List.take_append_drop len (c :: rest)
          · intro p hp
            rcases List.mem_cons.mp hp with rfl | hp'
            · refine ⟨hbank, ?_, ?_⟩
              · rw [List.length_take]; omega
              · have : 0 < ((c :: rest).take len).length := by
                  rw [List.length_take]
                  simp only [List.length_cons]
                  omega
                exact List.length_pos.mp this
            · exact ihmem p hp'

theorem canCoverSegment_known_decomp (segment : List Char) (bank : List (List Char))
    (h : (canCoverSegment segment bank).known = true) :
    segment ∈ bank ∨
      ∃ bd : List (List Char), bd.flatten = segment ∧
        ∀ p ∈ bd, p ∈ bank ∧ p.length ≤ 4 ∧ p ≠ [] := by
  by_cases hd : segment ∈ bank
  · exact Or.inl hd
  · right
    unfold canCoverSegment at h
    rw [if_neg hd] at h
    cases hg : coverGreedy bank segment with
    | none => rw [hg] at h; exact Bool.noConfusion h
    | some bd =>
      exact ⟨bd, coverGreedyFuel_sound bank segment.length segment bd hg⟩

theorem scorer_known_split_known (segment : List Char) (bank : List (List Char))
    (hlen : segment.length ≤ 6) (h : (canCoverSegment segment bank).known = true) :
    ∀ q ∈ splitTokenIntoKnownAndUnknown segment bank 6, q.known = true := by
  rcases canCoverSegment_known_decomp segment bank h with hd | ⟨bd, hf, hp⟩
  · refine split_all_known segment bank [segment] (by simp) ?_
    intro p hp
    simp only [List.mem_singleton] at hp
    subst hp
    exact ⟨hd, hlen⟩
  · refine split_all_known segment bank bd hf ?_
    intro p hq
    exact ⟨(hp p hq).1, by have := (hp p hq).2.1; omega⟩

/-! ## Lemmas about the coverage accounting fold -/

theorem coverageStep_inv (userWordBank : List (List Char))
    (acc : Nat × Nat × List (List Char)) (segment : List Char)
    (h : acc.2.1 + acc.2.2.length = acc.1) :
    (coverageStep userWordBank acc segment).2.1 +
        (coverageStep userWordBank acc segment).2.2.length =
      (coverageStep userWordBank acc segment).1 := by
  unfold coverageStep
  by_cases h1 : isChinesePunctuationQuiz segment = true
  · rw [if_pos h1]; exact h
  · rw [if_neg h1]
    by_cases h2 : ¬ segment.any isCJK = true
    · rw [if_pos h2]; exact h
    · rw [if_neg h2]
      by_cases h3 : (canCoverSegment segment userWordBank).known = true
      · rw [if_pos h3]; simp only []; omega
      · rw [if_neg h3]; simp only [List.length_append, List.length_cons]; simp; omega

theorem coverage_foldl_inv (userWordBank : List (List Char)) (segments : List (List Char)) :
    ∀ acc : Nat × Nat × List (List Char), acc.2.1 + acc.2.2.length = acc.1 →
      (segments.foldl (coverageStep userWordBank) acc).2.1 +
          (segments.foldl (coverageStep userWordBank) acc).2.2.length =
        (segments.foldl (coverageStep userWordBank) acc).1 := by
  induction segments with
  | nil => intro acc h; exact h
  | cons seg segs ih =>
    intro acc h
    simp only [List.foldl_cons]
    exact ih _ (coverageStep_inv userWordBank acc seg h)

theorem calculateCoverage_counts (segments : List (List Char))
    (userWordBank : List (List Char)) :
    (calculateCoverage segments userWordBank).knownSegments +
        (calculateCoverage segments userWordBank).unknownSegments.length =
      (calculateCoverage segments userWordBank).totalSegments := by
  unfold calculateCoverage
  exact coverage_foldl_inv userWordBank segments (0, 0, []) rfl

theorem coverageStep_skip (userWordBank : List (List Char))
    (acc : Nat × Nat × List (List Char)) (segment : List Char)
    (h : segment ∈ QUIZ_CHINESE_PUNCTUATION ∨ segment.any isCJK = false) :
    coverageStep userWordBank acc segment = acc := by
  unfold coverageStep
  rcases h with h | h
  · rw [if_pos (by simp [isChinesePunctuationQuiz, h])]
  · by_cases h1 : isChinesePunctuationQuiz segment = true
    · rw [if_pos h1]
    · rw [if_neg h1, if_pos (by simp [h])]

/-! ## Lemmas about the convergence controller loop -/

theorem pipelineLoop_zero {S : Type} (find : S → Nat × S) (resolve : S → S)
    (prev : Option Nat) (s : S) :
    pipelineLoop find resolve 0 prev s = ([], s) := rfl

theorem pipelineLoop_succ {S : Type} (find : S → Nat × S) (resolve : S → S)
    (r : Nat) (prev : Option Nat) (s : S) :
    pipelineLoop find resolve (r + 1) prev s =
      (if (match prev with
          | some p => decide ((find s).1 ≥ p)
          | none => false) = true then
        ([⟨(find s).1, false⟩], (find s).2)
      else if (find s).1 = 0 then ([⟨(find s).1, false⟩], (find s).2)
      else
        (⟨(find s).1, true⟩ ::
            (pipelineLoop find resolve r (some (find s).1) (resolve (find s).2)).1,
          (pipelineLoop find resolve r (some (find s).1) (resolve (find s).2)).2)) := rfl

theorem pipelineLoop_length {S : Type} (find : S → Nat × S) (resolve : S → S) :
    ∀ (fuel : Nat) (prev : Option Nat) (s : S),
      (pipelineLoop find resolve fuel prev s).1.length ≤ fuel := by
  intro fuel
  induction fuel with
  | zero => intro prev s; rw [pipelineLoop_zero]; simp
  | succ r ih =>
    intro prev s
    rw [pipelineLoop_succ]
    have hrec := ih (some (find s).1) (resolve (find s).2)
    cases prev with
    | none =>
      rw [if_neg (by simp)]
      by_cases h0 : (find s).1 = 0
      · rw [if_pos h0]; simp
      · rw [if_neg h0]
        simp only [List.length_cons]
        omega
    | some p =>
      by_cases hc : (decide ((find s).1 ≥ p)) = true
      · rw [if_pos hc]; simp
      · rw [if_neg hc]
        by_cases h0 : (find s).1 = 0
        · rw [if_pos h0]; simp
        · rw [if_neg h0]
          simp only [List.length_cons]
          omega

theorem pipelineLoop_head {S : Type} (find : S → Nat × S) (resolve : S → S) :
    ∀ (fuel p : Nat) (s : S) (b : Round),
      (pipelineLoop find resolve fuel (some p) s).1.get? 0 = some b →
      p ≤ b.unknowns →
      (pipelineLoop find resolve fuel (some p) s).1 = [b] ∧ b.resolved = false := by
  intro fuel p s b hget hle
  cases fuel with
  | zero => rw [pipelineLoop_zero] at hget; simp at hget
  | succ r =>
    rw [pipelineLoop_succ] at hget ⊢
    simp only [] at hget ⊢
    by_cases hc : (decide ((find s).1 ≥ p)) = true
    · rw [if_pos hc] at hget ⊢
      simp only [List.get?_cons_zero] at hget
      injection hget with hget
      subst hget
      exact ⟨rfl, rfl⟩
    · exfalso
      have hlt : ¬ ((find s).1 ≥ p) := by simpa using hc
      rw [if_neg hc] at hget
      by_cases h0 : (find s).1 = 0
      · rw [if_pos h0] at hget
        simp only [List.get?_cons_zero] at hget
        injection hget with hget
        subst hget
        simp only [] at hle
        omega
      · rw [if_neg h0] at hget
        simp only [List.get?_cons_zero] at hget
        injection hget with hget
        subst hget
        simp only [] at hle
        omega

theorem pipelineLoop_adjacent {S : Type} (find : S → Nat × S) (resolve : S → S) :
    ∀ (fuel : Nat) (prev : Option Nat) (s : S) (i : Nat) (a b : Round),
      (pipelineLoop find resolve fuel prev s).1.get? i = some a →
      (pipelineLoop find resolve fuel prev s).1.get? (i + 1) = some b →
      a.unknowns ≤ b.unknowns →
      b.resolved = false ∧ (pipelineLoop find resolve fuel prev s).1.length = i + 2 := by
  intro fuel
  induction fuel with
  | zero =>
    intro prev s i a b ha _ _
    rw [pipelineLoop_zero] at ha
    simp at ha
  | succ r ih =>
    intro prev s i a b ha hb hle
    rw [pipelineLoop_succ] at ha hb ⊢
    have hstep : ∀ hya : ({ unknowns := (find s).1, resolved := true } ::
          (pipelineLoop find resolve r (some (find s).1) (resolve (find s).2)).1,
          (pipelineLoop find resolve r (some (find s).1)
            (resolve (find s).2)).2).1.get? i = some a,
        ({ unknowns := (find s).1, resolved := true } ::
          (pipelineLoop find resolve r (some (find s).1) (resolve (find s).2)).1,
          (pipelineLoop find resolve r (some (find s).1)
            (resolve (find s).2)).2).1.get? (i + 1) = some b →
        b.resolved = false ∧
          ({ unknowns := (find s).1, resolved := true } ::
            (pipelineLoop find resolve r (some (find s).1) (resolve (find s).2)).1).length
            = i + 2 := by
      intro hya hyb
      cases i with
      | zero =>
        simp only [List.get?_cons_zero] at hya
        injection hya with hya
        subst hya
        simp only [List.get?_cons_succ] at hyb
        obtain ⟨heq, hres⟩ := pipelineLoop_head find resolve r (find s).1
          (resolve (find s).2) b hyb (by simpa using hle)
        refine ⟨hres, ?_⟩
        simp [heq]
      | succ i' =>
        simp only [List.get?_cons_succ] at hya hyb
        obtain ⟨hres, hlen⟩ := ih (some (find s).1) (resolve (find s).2) i' a b hya hyb hle
        refine ⟨hres, ?_⟩
        simp only [List.length_cons, hlen]
    cases prev with
    | none =>
      rw [if_neg (by simp)] at ha hb ⊢
      by_cases h0 : (find s).1 = 0
      · rw [if_pos h0] at ha hb
        simp at hb
      · rw [if_neg h0] at ha hb ⊢
        exact hstep ha hb
    | some p =>
      by_cases hc : (decide ((find s).1 ≥ p)) = true
      · rw [if_pos hc] at ha hb
        simp at hb
      · rw [if_neg hc] at ha hb ⊢
        by_cases h0 : (find s).1 = 0
        · rw [if_pos h0] at ha hb
          simp at hb
        · rw [if_neg h0] at ha hb ⊢
          exact hstep ha hb

theorem pipelineLoop_nonfinal {S : Type} (find : S → Nat × S) (resolve : S → S) :
    ∀ (fuel : Nat) (prev : Option Nat) (s : S) (i : Nat) (a : Round),
      (pipelineLoop find resolve fuel prev s).1.get? i = some a →
      i + 1 < (pipelineLoop find resolve fuel prev s).1.length →
      a.resolved = true ∧ a.unknowns ≠ 0 := by
  intro fuel
  induction fuel with
  | zero =>
    intro prev s i a ha _
    rw [pipelineLoop_zero] at ha
    simp at ha
  | succ r ih =>
    intro prev s i a ha hlen
    rw [pipelineLoop_succ] at ha hlen
    have hstep : ({ unknowns := (find s).1, resolved := true } ::
          (pipelineLoop find resolve r (some (find s).1) (resolve (find s).2)).1,
          (pipelineLoop find resolve r (some (find s).1)
            (resolve (find s).2)).2).1.get? i = some a →
        i + 1 < ({ unknowns := (find s).1, resolved := true } ::
          (pipelineLoop find resolve r (some (find s).1) (resolve (find s).2)).1).length →
        (find s).1 ≠ 0 →
        a.resolved = true ∧ a.unknowns ≠ 0 := by
      intro hya hylen h0
      cases i with
      | zero =>
        simp only [List.get?_cons_zero] at hya
        injection hya with hya
        subst hya
        exact ⟨rfl, h0⟩
      | succ i' =>
        simp only [List.get?_cons_succ] at hya
        simp only [List.length_cons] at hylen
        exact ih (some (find s).1) (resolve (find s).2) i' a hya (by omega)
    cases prev with
    | none =>
      rw [if_neg (by simp)] at ha hlen
      by_cases h0 : (find s).1 = 0
      · rw [if_pos h0] at ha hlen
        simp at hlen
      · rw [if_neg h0] at ha hlen
        exact hstep ha hlen h0
    | some p =>
      by_cases hc : (decide ((find s).1 ≥ p)) = true
      · rw [if_pos hc] at ha hlen
        simp at hlen
      · rw [if_neg hc] at ha hlen
        by_cases h0 : (find s).1 = 0
        · rw [if_pos h0] at ha hlen
          simp at hlen
        · rw [if_neg h0] at ha hlen
          exact hstep ha hlen h0

/-! ## Lemmas about the pinyin tone-mark conversion -/

theorem replaceFirstChar_self (l : List Char) (t : Char) :
    replaceFirstChar l t t = l := by
  induction l with
  | nil => rfl
  | cons c rest ih =>
    unfold replaceFirstChar
    by_cases hc : c = t
    · rw [if_pos hc, hc]
    · rw [if_neg hc, ih]

theorem markVowel_tone5 (base : List Char) : markVowel base 5 = base := by
  unfold markVowel
  cases hf : vowelOrder.find? (fun v => listIncludes base v) with
  | none => rfl
  | some v =>
    have hv := List.mem_of_find?_eq_some hf
    fin_cases hv <;>
      simp [toneVariants, replaceFirstChar_self]

theorem convertSyllable_tone5 (b : List Char) :
    convertSyllable (b ++ ['5']) = normalizeBase (b.map Char.toLower) := by
  unfold convertSyllable
  rw [List.getLast?_concat]
  dsimp only
  rw [if_pos (by decide : ('5' : Char).isDigit = true)]
  rw [List.dropLast_concat]
  have h5 : ('5' : Char).toNat - ('0' : Char).toNat = 5 := by decide
  rw [h5, markVowel_tone5]

/-! ## Claim theorems -/

/-- C1 (counterexample): the claimed equivalence between the Coverage
Scorer's segment-known determination (`canCoverSegment`, greedy
longest-prefix matching capped at 4 characters) and the Optimal Token
Splitter being 100% known fails.  For the segment 玛丽很 and the bank
{玛, 丽很, 玛丽}, the greedy scorer commits to the prefix 玛丽 and then
cannot cover 很, returning known = false, while the splitter finds the
full cover 玛 + 丽很 and returns a single fully-known piece. -/
theorem claim_C1_counterexample :
    (canCoverSegment "玛丽很".toList
      ["玛".toList, "丽很".toList, "玛丽".toList]).known = false ∧
    (splitTokenIntoKnownAndUnknown "玛丽很".toList
      ["玛".toList, "丽很".toList, "玛丽".toList] 6).all (fun p => p.known) = true ∧
    "玛丽很".toList.length ≤ 6 := by
  refine ⟨by decide, by decide, by decide⟩

/-- C1 (amended): the scorer's segment-known determination is not equivalent
to the Splitter's 100%-known determination; only one direction holds.  For
every segment of at most `max_piece_length` (6) code points, if the scorer
classifies the segment as known then every piece of the Splitter's output for
that segment is known. -/
theorem claim_C1 (segment : List Char) (userWordBank : List (List Char))
    (hlen : segment.length ≤ 6)
    (h : (canCoverSegment segment userWordBank).known = true) :
    ∀ q ∈ splitTokenIntoKnownAndUnknown segment userWordBank 6, q.known = true :=
  scorer_known_split_known segment userWordBank hlen h

/-- C1 (witness): the amended claim at the segment 你好 with bank {你好}. -/
theorem claim_C1_witness :
    "你好".toList.length ≤ 6 ∧
    (canCoverSegment "你好".toList ["你好".toList]).known = true ∧
    ∀ q ∈ splitTokenIntoKnownAndUnknown "你好".toList ["你好".toList] 6,
      q.known = true :=
  ⟨by decide, by decide, claim_C1 "你好".toList ["你好".toList] (by decide) (by decide)⟩

/-- C2 (counterexample): without a length cap the known-maximality claim
fails, because the DP only tries known words up to `max_piece_length = 6`
code points.  The 7-character token 独立自主和平外, with a known set
containing exactly that token, decomposes (trivially, as itself) covering
7 characters with known pieces, while `split` covers 0. -/
theorem claim_C2_counterexample :
    (∀ p ∈ ["独立自主和平外".toList], p ≠ ([] : List Char)) ∧
    ["独立自主和平外".toList].flatten = "独立自主和平外".toList ∧
    decompCovered ["独立自主和平外".toList] ["独立自主和平外".toList] = 7 ∧
    knownChars (splitTokenIntoKnownAndUnknown "独立自主和平外".toList
      ["独立自主和平外".toList] 6) = 0 := by
  refine ⟨by decide, by decide, by decide, by decide⟩

/-- C2 (amended): for every token `t`, known set `K` and decomposition of
`t` into contiguous non-empty pieces, the characters covered by pieces that
are members of `K` *of length at most `max_piece_length` (6)* never exceed
the characters covered by the known pieces of `split(t, K)`. -/
theorem claim_C2 (t : List Char) (known : List (List Char)) (d : List (List Char))
    (hne : ∀ p ∈ d, p ≠ ([] : List Char)) (hflat : d.flatten = t) :
    cappedCovered known 6 d ≤ knownChars (splitTokenIntoKnownAndUnknown t known 6) := by
  rw [split_knownChars]
  exact decomp_covered_le t known 6 d t.length (le_refl _)
    (by rw [List.take_length]; exact hflat)

/-- C2 (witness): the amended claim at token 玛丽很高 with known set
{很, 高} and the single-character decomposition. -/
theorem claim_C2_witness :
    (∀ p ∈ ["玛".toList, "丽".toList, "很".toList, "高".toList],
      p ≠ ([] : List Char)) ∧
    ["玛".toList, "丽".toList, "很".toList, "高".toList].flatten = "玛丽很高".toList ∧
    cappedCovered ["很".toList, "高".toList] 6
        ["玛".toList, "丽".toList, "很".toList, "高".toList] ≤
      knownChars (splitTokenIntoKnownAndUnknown "玛丽很高".toList
        ["很".toList, "高".toList] 6) :=
  ⟨by decide, by decide,
    claim_C2 "玛丽很高".toList ["很".toList, "高".toList]
      ["玛".toList, "丽".toList, "很".toList, "高".toList] (by decide) (by decide)⟩

/-- C3: for every token and known set, concatenating the text fields of the
pieces returned by `split(t, K)` in order yields exactly `t` (lossless
decomposition). -/
theorem claim_C3 (t : List Char) (known : List (List Char)) :
    textConcat (splitTokenIntoKnownAndUnknown t known 6) = t :=
  split_textConcat t known 6

/-- C4: the Convergence Controller loop terminates after at most the
ceiling (5) rounds; while it keeps iterating, every non-final round ran
resolution on a non-zero unknown count, and the unknown counts strictly
decrease between rounds that are both followed by another round. -/
theorem claim_C4 (S : Type) (find : S → Nat × S) (resolve : S → S) (s : S) :
    (runConvergence find resolve s).1.length ≤ 5 ∧
    (∀ i a, (runConvergence find resolve s).1.get? i = some a →
      i + 1 < (runConvergence find resolve s).1.length →
      a.resolved = true ∧ a.unknowns ≠ 0) ∧
    (∀ i a b, (runConvergence find resolve s).1.get? i = some a →
      (runConvergence find resolve s).1.get? (i + 1) = some b →
      i + 2 < (runConvergence find resolve s).1.length →
      b.unknowns < a.unknowns) := by
  refine ⟨pipelineLoop_length find resolve 5 none s, ?_, ?_⟩
  · intro i a ha hl
    exact pipelineLoop_nonfinal find resolve 5 none s i a ha hl
  · intro i a b ha hb hl
    by_contra hge
    push_neg at hge
    obtain ⟨_, hlen⟩ :=
      pipelineLoop_adjacent find resolve 5 none s i a b ha hb (by omega)
    have he : runConvergence find resolve s = pipelineLoop find resolve 5 none s := rfl
    rw [he] at hl
    omega

/-- C4 (witness): the termination bound and round facts at the concrete
controller run whose unknown counts are 3, 2, 2. -/
theorem claim_C4_witness :
    (runConvergence (fun l : List Nat => (l.headD 0, l.tail)) id [3, 2, 2]).1.length ≤ 5 ∧
    ((⟨3, true⟩ : Round).resolved = true ∧ (⟨3, true⟩ : Round).unknowns ≠ 0) ∧
    (⟨2, true⟩ : Round).unknowns < (⟨3, true⟩ : Round).unknowns :=
  ⟨(claim_C4 (List Nat) (fun l => (l.headD 0, l.tail)) id [3, 2, 2]).1,
    (claim_C4 (List Nat) (fun l => (l.headD 0, l.tail)) id [3, 2, 2]).2.1
      0 ⟨3, true⟩ (by decide) (by decide),
    (claim_C4 (List Nat) (fun l => (l.headD 0, l.tail)) id [3, 2, 2]).2.2
      0 ⟨3, true⟩ ⟨2, true⟩ (by decide) (by decide) (by decide)⟩

/-- C5: whenever a controller round observes an unknown count that is not
smaller than the previous round's count, that round is the last one and its
`resolved` flag is false — the Enrichment Resolver never runs after a
non-decreasing unknown count is observed. -/
theorem claim_C5 (S : Type) (find : S → Nat × S) (resolve : S → S) (s : S)
    (i : Nat) (a b : Round)
    (ha : (runConvergence find resolve s).1.get? i = some a)
    (hb : (runConvergence find resolve s).1.get? (i + 1) = some b)
    (hle : a.unknowns ≤ b.unknowns) :
    b.resolved = false ∧ (runConvergence find resolve s).1.length = i + 2 :=
  pipelineLoop_adjacent find resolve 5 none s i a b ha hb hle

/-- C5 (witness): the controller run with unknown counts 40, 12, 12 halts at
round 3 without resolving (the round that observed 12 ≥ 12). -/
theorem claim_C5_witness :
    (⟨12, false⟩ : Round).resolved = false ∧
    (runConvergence (fun l : List Nat => (l.headD 0, l.tail)) id [40, 12, 12]).1.length
      = 1 + 2 :=
  claim_C5 (List Nat) (fun l => (l.headD 0, l.tail)) id [40, 12, 12]
    1 ⟨12, true⟩ ⟨12, false⟩ (by decide) (by decide) (by decide)

/-- C6 (counterexample): the claim fails for known tokens longer than
`max_piece_length = 6`: the 7-character token 一二三四五六七, itself a
member of the known set, is returned as a single *unknown* piece, not as
`[{t, true}]`. -/
theorem claim_C6_counterexample :
    "一二三四五六七".toList ≠ [] ∧
    "一二三四五六七".toList ∈ ["一二三四五六七".toList] ∧
    splitTokenIntoKnownAndUnknown "一二三四五六七".toList
        ["一二三四五六七".toList] 6 ≠
      [⟨"一二三四五六七".toList, true⟩] := by
  refine ⟨by decide, by decide, by decide⟩

/-- C6 (amended): `split("", K)` is empty for every known set; and every
non-empty token of at most `max_piece_length` (6) code points that is itself
a member of `K` splits into exactly the one known piece `{t, true}`; in
particular `split("你好", {"你好"}) = [{"你好", true}]`. -/
theorem claim_C6 :
    (∀ known : List (List Char), splitTokenIntoKnownAndUnknown [] known 6 = []) ∧
    (∀ (t : List Char) (known : List (List Char)), t ≠ [] → t.length ≤ 6 →
      t ∈ known → splitTokenIntoKnownAndUnknown t known 6 = [⟨t, true⟩]) ∧
    splitTokenIntoKnownAndUnknown "你好".toList ["你好".toList] 6 =
      [⟨"你好".toList, true⟩] :=
  ⟨fun known => split_nil known 6,
    fun t known h1 h2 h3 => split_single_known t known h1 h2 h3,
    by decide⟩

/-- C6 (witness): the amended claim's single-known-word case at the token
你好 with known set {你好}. -/
theorem claim_C6_witness :
    "你好".toList ≠ [] ∧ "你好".toList.length ≤ 6 ∧
    "你好".toList ∈ ["你好".toList] ∧
    splitTokenIntoKnownAndUnknown "你好".toList ["你好".toList] 6 =
      [⟨"你好".toList, true⟩] :=
  ⟨by decide, by decide, by decide,
    claim_C6.2.1 "你好".toList ["你好".toList] (by decide) (by decide) (by decide)⟩

/-- C7: the numeric-to-diacritic conversion works syllable by syllable on
space-separated syllables; a trailing digit is stripped; tone 5 produces no
diacritic (the base, lowercased with `u:`/`v` normalized to `ü`, is returned
bare); `u:` and `v` are normalized to `ü` before marking; and the mark is
placed per the fixed precedence order (a before o in 好, the u of iu in 修,
the i of ui in 水); in particular `"ka1 fei1"` converts to `"kā fēi"`. -/
theorem claim_C7 :
    numericToToneMarks "ka1 fei1".toList = "kā fēi".toList ∧
    (∀ b : List Char, convertSyllable (b ++ ['5']) =
      normalizeBase (b.map Char.toLower)) ∧
    numericToToneMarks "lu:4".toList = "lǜ".toList ∧
    numericToToneMarks "nv3".toList = "nǚ".toList ∧
    numericToToneMarks "hao3".toList = "hǎo".toList ∧
    numericToToneMarks "xiu1".toList = "xiū".toList ∧
    numericToToneMarks "shui3".toList = "shuǐ".toList ∧
    numericToToneMarks "ma5".toList = "ma".toList :=
  ⟨by decide, convertSyllable_tone5, by decide, by decide, by decide,
    by decide, by decide, by decide⟩

/-- C8: no two consecutive pieces in the output of `split(t, K)` carry the
same `is_known` value — adjacent same-status pieces are always merged. -/
theorem claim_C8 (t : List Char) (known : List (List Char)) :
    List.Chain' (fun a b : Piece => a.known ≠ b.known)
      (splitTokenIntoKnownAndUnknown t known 6) :=
  split_chain' t known 6

/-- C9: the coverage score equals `known_segments / total_segments`, is 0
when `total_segments` is 0, and always lies in the closed interval [0, 1].
(The JS floating-point division is modelled over `ℚ`.) -/
theorem claim_C9 (segments : List (List Char)) (userWordBank : List (List Char)) :
    (calculateCoverage segments userWordBank).score =
      (if (calculateCoverage segments userWordBank).totalSegments = 0 then 0
       else ((calculateCoverage segments userWordBank).knownSegments : ℚ) /
         ((calculateCoverage segments userWordBank).totalSegments : ℚ)) ∧
    0 ≤ (calculateCoverage segments userWordBank).score ∧
    (calculateCoverage segments userWordBank).score ≤ 1 := by
  have hcounts := calculateCoverage_counts segments userWordBank
  have hk : (calculateCoverage segments userWordBank).knownSegments ≤
      (calculateCoverage segments userWordBank).totalSegments := by omega
  have hscore : (calculateCoverage segments userWordBank).score =
      if (calculateCoverage segments userWordBank).totalSegments > 0 then
        ((calculateCoverage segments userWordBank).knownSegments : ℚ) /
          ((calculateCoverage segments userWordBank).totalSegments : ℚ)
      else 0 := rfl
  by_cases ht : (calculateCoverage segments userWordBank).totalSegments = 0
  · rw [hscore, if_neg (by omega), if_pos ht]
    norm_num
  · have htpos : 0 < (calculateCoverage segments userWordBank).totalSegments := by omega
    rw [hscore, if_pos htpos, if_neg ht]
    have htq : (0 : ℚ) < ((calculateCoverage segments userWordBank).totalSegments : ℚ) := by
      exact_mod_cast htpos
    refine ⟨rfl, ?_, ?_⟩
    · positivity
    · rw [div_le_one htq]
      exact_mod_cast hk

/-- C10: every counted segment is classified exactly once —
`known_segments + |unknown_segments| = total_segments` — and segments that
are punctuation or contain no CJK character contribute to neither count
(prepending such a segment leaves the whole result unchanged). -/
theorem claim_C10 (segments : List (List Char)) (userWordBank : List (List Char)) :
    ((calculateCoverage segments userWordBank).knownSegments +
        (calculateCoverage segments userWordBank).unknownSegments.length =
      (calculateCoverage segments userWordBank).totalSegments) ∧
    (∀ seg : List Char, seg ∈ QUIZ_CHINESE_PUNCTUATION ∨ seg.any isCJK = false →
      calculateCoverage (seg :: segments) userWordBank =
        calculateCoverage segments userWordBank) := by
  refine ⟨calculateCoverage_counts segments userWordBank, ?_⟩
  intro seg h
  unfold calculateCoverage
  rw [List.foldl_cons, coverageStep_skip userWordBank (0, 0, []) seg h]

/-- C10 (witness): the skip clause at the punctuation segment ，. -/
theorem claim_C10_witness :
    (("，".toList ∈ QUIZ_CHINESE_PUNCTUATION ∨ "，".toList.any isCJK = false) ∧
      calculateCoverage ["，".toList] [] = calculateCoverage [] []) :=
  ⟨Or.inl (by decide),
    (claim_C10 [] []).2 "，".toList (Or.inl (by decide))⟩

end PracticeZh
